import Mathlib

/-!
Shallow embedding of `src/Pagerank/Pagerank.py`.

Pages are modelled as natural numbers (Python page identifiers are opaque
hashable values; only equality is used).  A Python `dict` is modelled as an
association list with unique keys, preserving insertion order; a Python `set`
of links is modelled as a duplicate-free list.  Python floats are modelled as
exact rationals.  Operations that can raise (`KeyError` on a missing dict key,
`ZeroDivisionError`, `random.choice` on an empty sequence) return `Option`,
with `none` standing for the raised exception.
-/

abbrev Page := ℕ

/-- A link graph (the Python `corpus` dict): insertion-ordered association
list from page to its list of outbound links (a Python set). -/
abbrev LinkGraph := List (Page × List Page)

/-- A probability/rank dictionary: insertion-ordered association list from
page to a rational value. -/
abbrev RankDict := List (Page × ℚ)

/-- The keys of a dict, in insertion order (Python `d.keys()`). -/
def keysOf {α : Type} (d : List (Page × α)) : List Page := d.map Prod.fst

/-- Python `d[k]` read: value at the first entry with key `k`, `none` when the
key is missing (a `KeyError`). -/
def dictGet? {α : Type} : List (Page × α) → Page → Option α
  | [], _ => none
  | e :: rest, k => if e.1 = k then some e.2 else dictGet? rest k

/-- Python `d[k] = v`: replace the value at key `k` in place, appending a new
entry when the key is missing. -/
def dictSet {α : Type} : List (Page × α) → Page → α → List (Page × α)
  | [], k, v => [(k, v)]
  | e :: rest, k, v => if e.1 = k then (k, v) :: rest else e :: dictSet rest k v

/-- Python `d[k] += v`: in-place increment of an existing entry, `none` when
the key is missing (a `KeyError`). -/
def incKey {α : Type} [Add α] : List (Page × α) → Page → α → Option (List (Page × α))
  | [], _, _ => none
  | e :: rest, k, v =>
    if e.1 = k then some ((e.1, e.2 + v) :: rest)
    else (incKey rest k v).map (e :: ·)

/-- Sum of the values of a dict. -/
def sumValues {α : Type} [AddCommMonoid α] (d : List (Page × α)) : α :=
  (d.map Prod.snd).sum

/-- Python division, raising (`none`) on a zero divisor (`ZeroDivisionError`). -/
def qdiv? (a b : ℚ) : Option ℚ := if b = 0 then none else some (a / b)

/-- The `for corpus_links in corpus[page]: specific_factor[corpus_links] += links`
loop of `transition_model`: add `inc` to the entry of each listed page,
raising (`none`) as soon as a page is not a key of the dict. -/
def addLinks : RankDict → List Page → ℚ → Option RankDict
  | d, [], _ => some d
  | d, l :: ls, inc =>
    match incKey d l inc with
    | none => none
    | some d' => addLinks d' ls inc

/-- `transition_model(corpus, page, damping_factor)` from the source:
if `corpus[page]` is non-empty, start every page at `(1-damping)/N` and add
`damping/L` to each linked page; otherwise return the uniform distribution
`1/N`.  `none` models the `KeyError` raised when `page` (or a linked page)
is not a key of `corpus`. -/
def transition_model (corpus : LinkGraph) (page : Page) (damping_factor : ℚ) :
    Option RankDict :=
  match dictGet? corpus page with
  | none => none
  | some pageLinks =>
    if pageLinks.isEmpty then
      some (corpus.map (fun e => (e.1, 1 / (corpus.length : ℚ))))
    else
      let random_factor : ℚ := (1 - damping_factor) / (corpus.length : ℚ)
      let specific_factor : RankDict := corpus.map (fun e => (e.1, random_factor))
      let links : ℚ := damping_factor / (pageLinks.length : ℚ)
      addLinks specific_factor pageLinks links

/-- The link-graph invariants established by `crawl` (§3 of the spec): keys
are unique, every link target is itself a key, a page never links to itself,
and each link set is duplicate-free (it is a Python set). -/
def ValidGraph (corpus : LinkGraph) : Prop :=
  (keysOf corpus).Nodup ∧
    ∀ e ∈ corpus, e.2.Nodup ∧ e.1 ∉ e.2 ∧ ∀ l ∈ e.2, l ∈ keysOf corpus

instance : DecidablePred ValidGraph := fun corpus => by
  unfold ValidGraph; infer_instance


/-- The randomness source injected into the sampler: `choice` models Python
`random.choice` (uniform pick from a sequence, raising on an empty one) and
`choices` models `random.choices(population, weights)[0]`. -/
structure RandSrc where
  choice : List Page → Option Page
  choices : List Page → List ℚ → Option Page

/-- A well-behaved randomness source: each draw from a non-empty population
returns some member of the population, and `random.choice` on an empty
sequence raises (returns `none`). -/
structure ValidRand (r : RandSrc) : Prop where
  choice_mem : ∀ l, l ≠ [] → ∃ p ∈ l, r.choice l = some p
  choices_mem : ∀ ks ws, ks ≠ [] → ∃ p ∈ ks, r.choices ks ws = some p
  choice_empty : r.choice [] = none

/-- The `for i in range(n - 1)` loop of `sample_pagerank`: count a visit to
the current page (`sample_ranks[corpus_page] += 1`), draw the next page from
the transition model, repeat.  The page reached by the final draw is never
counted. -/
def sampleWalk (r : RandSrc) (corpus : LinkGraph) (damping : ℚ) :
    ℕ → List (Page × ℕ) → Page → Option (List (Page × ℕ))
  | 0, sample_ranks, _ => some sample_ranks
  | k + 1, sample_ranks, corpus_page =>
    match incKey sample_ranks corpus_page 1 with
    | none => none
    | some ranks' =>
      match transition_model corpus corpus_page damping with
      | none => none
      | some internation =>
        match r.choices (keysOf internation) (internation.map Prod.snd) with
        | none => none
        | some next => sampleWalk r corpus damping k ranks' next

/-- The final dict comprehension of `sample_pagerank`:
`{page: count / n for page, count in sample_ranks.items()}`, raising
(`none`) when `n = 0` (`ZeroDivisionError`). -/
def rankComprehension : List (Page × ℕ) → ℤ → Option RankDict
  | [], _ => some []
  | e :: rest, n =>
    match qdiv? (e.2 : ℚ) (n : ℚ) with
    | none => none
    | some q =>
      match rankComprehension rest n with
      | none => none
      | some tail => some ((e.1, q) :: tail)

/-- `sample_pagerank(corpus, damping_factor, n)` from the source, with the
randomness source passed explicitly: visit counters start at 0, the start
page is a uniform `random.choice` among the keys, the walk body runs
`n - 1` times, and each returned rank is `count / n`. -/
def sample_pagerank (r : RandSrc) (corpus : LinkGraph) (damping_factor : ℚ)
    (n : ℤ) : Option RankDict :=
  let sample_ranks : List (Page × ℕ) := corpus.map (fun e => (e.1, 0))
  match r.choice (keysOf corpus) with
  | none => none
  | some corpus_page =>
    match sampleWalk r corpus damping_factor (n - 1).toNat sample_ranks
        corpus_page with
    | none => none
    | some ranks => rankComprehension ranks n

/-- A concrete deterministic randomness source: always pick the first
element of the population. -/
def headRand : RandSrc where
  choice := fun l => l.head?
  choices := fun ks _ => ks.head?

abbrev QInf := WithTop ℚ

/-- The inner `for page_link, links in corpus.items()` loop of
`iterate_pagerank`: accumulate `interate_rank[page_link] / len(links)` over
every entry whose (dangling-extended) link set contains `page`.  A dangling
entry is treated as linking to every corpus key.  `none` models the
`KeyError` on a missing rank entry. -/
def linkCounterAux (allKeys : List Page) (interate_rank : RankDict)
    (page : Page) : LinkGraph → ℚ → Option ℚ
  | [], acc => some acc
  | e :: rest, acc =>
    let links := if e.2.isEmpty then allKeys else e.2
    if page ∈ links then
      match dictGet? interate_rank e.1 with
      | none => none
      | some r =>
        linkCounterAux allKeys interate_rank page rest
          (acc + r / (links.length : ℚ))
    else linkCounterAux allKeys interate_rank page rest acc

/-- The body of one `while` iteration of `iterate_pagerank`: for each page in
order, compute its new rank from the **current** rank dict (which already
holds this pass's earlier updates), record the change, and write the new
rank in place. -/
def iteratePassAux (corpus : LinkGraph) (damping_factor : ℚ) :
    List Page → RankDict × List (Page × QInf) →
      Option (RankDict × List (Page × QInf))
  | [], s => some s
  | page :: rest, s =>
    match linkCounterAux (keysOf corpus) s.1 page corpus 0 with
    | none => none
    | some link_counter =>
      let new_rank := (1 - damping_factor) / (corpus.length : ℚ)
        + damping_factor * link_counter
      match dictGet? s.1 page with
      | none => none
      | some old =>
        iteratePassAux corpus damping_factor rest
          (dictSet s.1 page new_rank,
           dictSet s.2 page ((|new_rank - old| : ℚ) : QInf))

/-- One whole pass of `iterate_pagerank` over `interate_rank.keys()`. -/
def iteratePass (corpus : LinkGraph) (damping_factor : ℚ)
    (s : RankDict × List (Page × QInf)) :
    Option (RankDict × List (Page × QInf)) :=
  iteratePassAux corpus damping_factor (keysOf s.1) s

/-- The loop guard `any(c > 0.001 for c in interate_changes.values())`. -/
def anyChangeGt (changes : List (Page × QInf)) : Bool :=
  changes.any (fun e => decide (((1/1000 : ℚ) : QInf) < e.2))

/-- The `while` loop of `iterate_pagerank`, with explicit fuel: `none` means
the loop has not finished within `fuel` passes. -/
def iterateLoop (corpus : LinkGraph) (damping_factor : ℚ) :
    ℕ → RankDict × List (Page × QInf) → Option RankDict
  | 0, _ => none
  | fuel + 1, s =>
    if anyChangeGt s.2 then
      match iteratePass corpus damping_factor s with
      | none => none
      | some s' => iterateLoop corpus damping_factor fuel s'
    else some s.1

/-- `iterate_pagerank(corpus, damping_factor)` from the source: ranks start
at `1/total` (raising `ZeroDivisionError` on an empty corpus), changes start
at `math.inf`, and the loop runs until no change exceeds 0.001. -/
def iterate_pagerank (corpus : LinkGraph) (damping_factor : ℚ) (fuel : ℕ) :
    Option RankDict :=
  match qdiv? 1 (corpus.length : ℚ) with
  | none => none
  | some init =>
    iterateLoop corpus damping_factor fuel
      (corpus.map (fun e => (e.1, init)),
       corpus.map (fun e => (e.1, (⊤ : QInf))))

/-- `k` whole passes in sequence. -/
def iteratePasses (corpus : LinkGraph) (damping_factor : ℚ) :
    ℕ → RankDict × List (Page × QInf) →
      Option (RankDict × List (Page × QInf))
  | 0, s => some s
  | k + 1, s =>
    match iteratePass corpus damping_factor s with
    | none => none
    | some s' => iteratePasses corpus damping_factor k s'

/-- Termination of the iterative estimator on a given input: some fuel
suffices for the `while` loop to exit. -/
def IterateTerminates (corpus : LinkGraph) (damping_factor : ℚ) : Prop :=
  ∃ fuel, (iterate_pagerank corpus damping_factor fuel).isSome = true

/-- Modelled from the spec (§4.3): one update pass that computes every page's
new rank from the previous iteration's full rank snapshot (never from values
updated earlier in the same pass).  This definition follows the spec's words
and exists only to be compared with the source's `iteratePass`. -/
def snapshotPassAux (corpus : LinkGraph) (damping_factor : ℚ)
    (old_rank : RankDict) : List Page → Option RankDict
  | [] => some []
  | page :: rest =>
    match linkCounterAux (keysOf corpus) old_rank page corpus 0 with
    | none => none
    | some link_counter =>
      match snapshotPassAux corpus damping_factor old_rank rest with
      | none => none
      | some tail =>
        some ((page, (1 - damping_factor) / (corpus.length : ℚ)
          + damping_factor * link_counter) :: tail)

/-- Modelled from the spec (§4.3): the whole snapshot (Jacobi) pass. -/
def snapshotPass (corpus : LinkGraph) (damping_factor : ℚ)
    (old_rank : RankDict) : Option RankDict :=
  snapshotPassAux corpus damping_factor old_rank (keysOf old_rank)


/-- The invariant driving the divergence proof on the graph
`{0: {}, 1: {3}, 2: {1}, 3: {2}}` at damping 1: page 0's rank `a` stays
positive, the gap `r3 - r2` equals `s/80 + a/20` for an alternating sign `s`,
and the recorded change of page 3 stays above the 0.001 threshold. -/
def Inv4 (st : RankDict × List (Page × QInf)) : Prop :=
  ∃ (a r1 r2 r3 : ℚ) (c0 c1 c2 c3 : QInf),
    st = ([(0, a), (1, r1), (2, r2), (3, r3)],
          [(0, c0), (1, c1), (2, c2), (3, c3)]) ∧
    0 < a ∧
    ((r3 - r2 = -1/80 + a/20 ∧ a ≤ 1/4) ∨
     (r3 - r2 = 1/80 + a/20 ∧ a ≤ 1/16)) ∧
    ((1/1000 : ℚ) : QInf) < c3

namespace DictLemmas

theorem dictGet?_isSome_iff {α : Type} (d : List (Page × α)) (k : Page) :
    (dictGet? d k).isSome ↔ k ∈ keysOf d := by
  induction d with
  | nil => simp [dictGet?, keysOf]
  | cons e rest ih =>
    by_cases h : e.1 = k
    · subst h; simp [dictGet?, keysOf]
    · simp only [dictGet?, if_neg h, keysOf, List.map_cons, List.mem_cons]
      rw [ih]
      simp [keysOf, Ne.symm h]

theorem dictGet?_eq_none {α : Type} (d : List (Page × α)) (k : Page)
    (h : k ∉ keysOf d) : dictGet? d k = none := by
  have := (dictGet?_isSome_iff d k).not.mpr h
  cases hd : dictGet? d k with
  | none => rfl
  | some v => rw [hd] at this; simp at this

theorem dictGet?_mem {α : Type} (d : List (Page × α)) (k : Page) (v : α)
    (h : dictGet? d k = some v) : (k, v) ∈ d := by
  induction d with
  | nil => simp [dictGet?] at h
  | cons e rest ih =>
    by_cases he : e.1 = k
    · simp [dictGet?, he] at h
      subst he; subst h; exact List.mem_cons_self _ _
    · simp [dictGet?, he] at h
      exact List.mem_cons_of_mem _ (ih h)

theorem dictGet?_of_mem (d : LinkGraph) (e : Page × List Page)
    (hnd : (keysOf d).Nodup) (h : e ∈ d) : dictGet? d e.1 = some e.2 := by
  induction d with
  | nil => simp at h
  | cons f rest ih =>
    rw [keysOf, List.map_cons, List.nodup_cons] at hnd
    rcases List.mem_cons.mp h with h | h
    · subst h; simp [dictGet?]
    · have hne : f.1 ≠ e.1 := by
        intro hc
        exact hnd.1 (hc ▸ List.mem_map_of_mem Prod.fst h)
      simp only [dictGet?, if_neg hne]
      exact ih hnd.2 h

theorem keysOf_map_value {α β : Type} (d : List (Page × α)) (f : Page × α → β) :
    keysOf (d.map (fun e => (e.1, f e))) = keysOf d := by
  induction d with
  | nil => rfl
  | cons e rest ih => simp only [keysOf, List.map_cons] at ih ⊢; rw [ih]

theorem dictGet?_map_const {α β : Type} (d : List (Page × α)) (c : β) (k : Page)
    (h : k ∈ keysOf d) : dictGet? (d.map (fun e => (e.1, c))) k = some c := by
  induction d with
  | nil => simp [keysOf] at h
  | cons e rest ih =>
    by_cases he : e.1 = k
    · simp [dictGet?, he]
    · simp [keysOf, Ne.symm he] at h
      simpa [dictGet?, he] using ih (by simpa [keysOf] using h)

theorem incKey_isSome {α : Type} [Add α] (d : List (Page × α)) (k : Page) (v : α) :
    (incKey d k v).isSome ↔ k ∈ keysOf d := by
  induction d with
  | nil => simp [incKey, keysOf]
  | cons e rest ih =>
    by_cases h : e.1 = k
    · subst h; simp [incKey, keysOf]
    · simp only [incKey, if_neg h, keysOf, List.map_cons, List.mem_cons]
      have hmap : (Option.map (fun x => e :: x) (incKey rest k v)).isSome
          = (incKey rest k v).isSome := by
        cases incKey rest k v <;> rfl
      rw [hmap, ih]
      simp [keysOf, Ne.symm h]

theorem incKey_cases {α : Type} [Add α] {d d' : List (Page × α)} {e : Page × α}
    {k : Page} {v : α} (h : incKey (e :: d) k v = some d') :
    (e.1 = k ∧ d' = (e.1, e.2 + v) :: d) ∨
      (e.1 ≠ k ∧ ∃ d₁, incKey d k v = some d₁ ∧ d' = e :: d₁) := by
  by_cases he : e.1 = k
  · left
    refine ⟨he, ?_⟩
    simp only [incKey, if_pos he, Option.some_inj] at h
    exact h.symm
  · right
    refine ⟨he, ?_⟩
    simp only [incKey, if_neg he, Option.map_eq_some'] at h
    obtain ⟨d₁, h₁, h₂⟩ := h
    exact ⟨d₁, h₁, h₂.symm⟩

theorem incKey_keysOf {α : Type} [Add α] {d d' : List (Page × α)} {k : Page}
    {v : α} (h : incKey d k v = some d') : keysOf d' = keysOf d := by
  induction d generalizing d' with
  | nil => simp [incKey] at h
  | cons e rest ih =>
    rcases incKey_cases h with ⟨_, rfl⟩ | ⟨_, d₁, h₁, rfl⟩
    · rfl
    · simp only [keysOf, List.map_cons]
      rw [show (d₁.map Prod.fst) = keysOf d₁ from rfl, ih h₁]
      rfl

theorem incKey_get_self {α : Type} [Add α] {d d' : List (Page × α)} {k : Page}
    {v : α} (h : incKey d k v = some d') :
    dictGet? d' k = (dictGet? d k).map (· + v) := by
  induction d generalizing d' with
  | nil => simp [incKey] at h
  | cons e rest ih =>
    rcases incKey_cases h with ⟨he, rfl⟩ | ⟨he, d₁, h₁, rfl⟩
    · simp [dictGet?, he]
    · simp only [dictGet?, if_neg he]
      exact ih h₁

theorem incKey_get_other {α : Type} [Add α] {d d' : List (Page × α)}
    {k k' : Page} {v : α} (hne : k' ≠ k) (h : incKey d k v = some d') :
    dictGet? d' k' = dictGet? d k' := by
  induction d generalizing d' with
  | nil => simp [incKey] at h
  | cons e rest ih =>
    rcases incKey_cases h with ⟨he, rfl⟩ | ⟨he, d₁, h₁, rfl⟩
    · simp [dictGet?, he, hne, Ne.symm hne]
    · by_cases h2 : e.1 = k'
      · simp [dictGet?, h2]
      · simp only [dictGet?, if_neg h2]
        exact ih h₁

theorem incKey_sum {α : Type} [AddCommMonoid α] {d d' : List (Page × α)}
    {k : Page} {v : α} (h : incKey d k v = some d') :
    sumValues d' = sumValues d + v := by
  induction d generalizing d' with
  | nil => simp [incKey] at h
  | cons e rest ih =>
    rcases incKey_cases h with ⟨he, rfl⟩ | ⟨he, d₁, h₁, rfl⟩
    · simp only [sumValues, List.map_cons, List.sum_cons]
      rw [add_assoc, add_comm v _, ← add_assoc]
    · simp only [sumValues, List.map_cons, List.sum_cons]
      rw [show ((d₁.map Prod.snd).sum : α) = sumValues d₁ from rfl, ih h₁,
        ← add_assoc]
      rfl

theorem addLinks_isSome (d : RankDict) (ls : List Page) (inc : ℚ)
    (hsub : ∀ l ∈ ls, l ∈ keysOf d) : (addLinks d ls inc).isSome := by
  induction ls generalizing d with
  | nil => simp [addLinks]
  | cons l ls ih =>
    have hl : l ∈ keysOf d := hsub l (List.mem_cons_self _ _)
    obtain ⟨d₁, h₁⟩ := Option.isSome_iff_exists.mp ((incKey_isSome d l inc).mpr hl)
    rw [addLinks, h₁]
    exact ih d₁ (fun x hx => (incKey_keysOf h₁).symm ▸ hsub x (List.mem_cons_of_mem _ hx))

theorem addLinks_keysOf {d d' : RankDict} {ls : List Page} {inc : ℚ}
    (h : addLinks d ls inc = some d') : keysOf d' = keysOf d := by
  induction ls generalizing d with
  | nil => simp only [addLinks, Option.some_inj] at h; rw [h]
  | cons l ls ih =>
    rw [addLinks] at h
    cases h₁ : incKey d l inc with
    | none => rw [h₁] at h; simp at h
    | some d₁ =>
      rw [h₁] at h
      rw [ih h, incKey_keysOf h₁]

theorem addLinks_get {d d' : RankDict} {ls : List Page} {inc : ℚ}
    (hnd : ls.Nodup) (hsub : ∀ l ∈ ls, l ∈ keysOf d)
    (h : addLinks d ls inc = some d') (k : Page) :
    dictGet? d' k = (dictGet? d k).map (· + (if k ∈ ls then inc else 0)) := by
  induction ls generalizing d with
  | nil =>
    simp only [addLinks, Option.some_inj] at h
    subst h
    cases dictGet? d k <;> simp
  | cons l ls ih =>
    rw [addLinks] at h
    cases h₁ : incKey d l inc with
    | none => rw [h₁] at h; simp at h
    | some d₁ =>
      rw [h₁] at h
      have hnd' := hnd.of_cons
      have hsub' : ∀ x ∈ ls, x ∈ keysOf d₁ := fun x hx =>
        (incKey_keysOf h₁).symm ▸ hsub x (List.mem_cons_of_mem _ hx)
      by_cases hk : k = l
      · subst hk
        have hkls : k ∉ ls := (List.nodup_cons.mp hnd).1
        rw [ih hnd' hsub' h, if_neg hkls, incKey_get_self h₁]
        cases dictGet? d k <;> simp [List.mem_cons]
      · rw [ih hnd' hsub' h, incKey_get_other hk h₁]
        cases dictGet? d k <;> simp [List.mem_cons, hk]

theorem addLinks_sum {d d' : RankDict} {ls : List Page} {inc : ℚ}
    (h : addLinks d ls inc = some d') :
    sumValues d' = sumValues d + ls.length * inc := by
  induction ls generalizing d with
  | nil => simp only [addLinks, Option.some_inj] at h; subst h; simp
  | cons l ls ih =>
    rw [addLinks] at h
    cases h₁ : incKey d l inc with
    | none => rw [h₁] at h; simp at h
    | some d₁ =>
      rw [h₁] at h
      rw [ih h, incKey_sum h₁]
      simp only [List.length_cons]
      push_cast
      ring

theorem sumValues_map_const {α : Type} (d : List (Page × α)) (c : ℚ) :
    sumValues (d.map (fun e => (e.1, c))) = d.length * c := by
  induction d with
  | nil => simp [sumValues]
  | cons e rest ih =>
    simp only [List.map_cons, sumValues, List.sum_cons, List.length_cons] at ih ⊢
    rw [ih]
    push_cast
    ring

end DictLemmas

open DictLemmas

theorem length_eq_of_keysOf {α β : Type} {d : List (Page × α)}
    {d' : List (Page × β)}
    (h : keysOf d' = keysOf d) : d'.length = d.length := by
  have h1 : (keysOf d').length = (keysOf d).length := by rw [h]
  simpa [keysOf] using h1

/-- Pointwise characterization of `transition_model` on a graph whose keys are
unique and whose link sets are duplicate-free subsets of the keys. -/
theorem transition_model_char (corpus : LinkGraph) (page : Page)
    (pageLinks : List Page) (damping : ℚ)
    (hv : ValidGraph corpus) (hpage : dictGet? corpus page = some pageLinks) :
    ∃ dist, transition_model corpus page damping = some dist ∧
      keysOf dist = keysOf corpus ∧
      ∀ q ∈ keysOf corpus, dictGet? dist q = some (
        if pageLinks.isEmpty then 1 / (corpus.length : ℚ)
        else (1 - damping) / (corpus.length : ℚ) +
          (if q ∈ pageLinks then damping / (pageLinks.length : ℚ) else 0)) := by
  have hmem : (page, pageLinks) ∈ corpus := dictGet?_mem _ _ _ hpage
  obtain ⟨hlnd, _, hsub⟩ := hv.2 _ hmem
  by_cases hempty : pageLinks.isEmpty
  · refine ⟨corpus.map (fun e => (e.1, 1 / (corpus.length : ℚ))), ?_, ?_, ?_⟩
    · simp only [transition_model, hpage, if_pos hempty]
    · exact keysOf_map_value corpus _
    · intro q hq
      rw [dictGet?_map_const corpus _ q hq, if_pos hempty]
  · have hsf : ∀ l ∈ pageLinks,
        l ∈ keysOf (corpus.map
          (fun e => (e.1, (1 - damping) / (corpus.length : ℚ)))) := by
      intro l hl
      rw [keysOf_map_value]
      exact hsub l hl
    obtain ⟨dist, hdist⟩ := Option.isSome_iff_exists.mp
      (addLinks_isSome _ pageLinks (damping / (pageLinks.length : ℚ)) hsf)
    refine ⟨dist, ?_, ?_, ?_⟩
    · simp only [transition_model, hpage, if_neg hempty]
      exact hdist
    · rw [addLinks_keysOf hdist, keysOf_map_value]
    · intro q hq
      rw [addLinks_get hlnd hsf hdist q,
        dictGet?_map_const corpus _ q hq, if_neg hempty]
      rfl

/-- C5: for a page with outbound links, `transition_model` assigns
`(1-damping)/N + damping/L` to each linked page and `(1-damping)/N` to every
other page; for a page with no outbound links it returns the uniform
distribution `1/N`. -/
theorem transition_model_distribution_formula (corpus : LinkGraph) (page : Page)
    (pageLinks : List Page) (damping : ℚ)
    (hv : ValidGraph corpus) (hpage : dictGet? corpus page = some pageLinks)
    (hd0 : 0 ≤ damping) (hd1 : damping ≤ 1) :
    ∃ dist, transition_model corpus page damping = some dist ∧
      ((pageLinks = [] →
        ∀ q ∈ keysOf corpus, dictGet? dist q = some (1 / (corpus.length : ℚ))) ∧
      (pageLinks ≠ [] →
        ∀ q ∈ keysOf corpus, dictGet? dist q = some (
          if q ∈ pageLinks then
            (1 - damping) / (corpus.length : ℚ)
              + damping / (pageLinks.length : ℚ)
          else (1 - damping) / (corpus.length : ℚ)))) := by
  obtain ⟨dist, hd, _, hget⟩ :=
    transition_model_char corpus page pageLinks damping hv hpage
  refine ⟨dist, hd, ?_, ?_⟩
  · intro hempty q hq
    rw [hget q hq, if_pos (List.isEmpty_iff.mpr hempty)]
  · intro hne q hq
    rw [hget q hq, if_neg (by simpa [List.isEmpty_iff] using hne)]
    by_cases hql : q ∈ pageLinks
    · rw [if_pos hql, if_pos hql]
    · rw [if_neg hql, if_neg hql, add_zero]

/-- C6: for a valid graph and a page that is a key of it, the distribution
returned by `transition_model` has exactly one entry per corpus page (its keys
are the corpus keys, hence exactly N entries) and its values sum to exactly 1. -/
theorem transition_model_entries_sum_one (corpus : LinkGraph) (page : Page)
    (pageLinks : List Page) (damping : ℚ)
    (hv : ValidGraph corpus) (hpage : dictGet? corpus page = some pageLinks)
    (hd0 : 0 ≤ damping) (hd1 : damping ≤ 1) :
    ∃ dist, transition_model corpus page damping = some dist ∧
      keysOf dist = keysOf corpus ∧ dist.length = corpus.length ∧
      sumValues dist = 1 := by
  have hmem : (page, pageLinks) ∈ corpus := dictGet?_mem _ _ _ hpage
  have hN : (corpus.length : ℚ) ≠ 0 := by
    have hne : corpus ≠ [] := by rintro rfl; simp at hmem
    exact Nat.cast_ne_zero.mpr (by simpa [List.length_eq_zero] using hne)
  obtain ⟨_, _, hsub⟩ := hv.2 _ hmem
  by_cases hempty : pageLinks.isEmpty
  · refine ⟨corpus.map (fun e => (e.1, 1 / (corpus.length : ℚ))), ?_, ?_, ?_, ?_⟩
    · simp only [transition_model, hpage, if_pos hempty]
    · exact keysOf_map_value corpus _
    · exact length_eq_of_keysOf
        (keysOf_map_value corpus (fun _ => 1 / (corpus.length : ℚ)))
    · rw [sumValues_map_const]
      field_simp
  · have hsf : ∀ l ∈ pageLinks,
        l ∈ keysOf (corpus.map
          (fun e => (e.1, (1 - damping) / (corpus.length : ℚ)))) := by
      intro l hl
      rw [keysOf_map_value]
      exact hsub l hl
    obtain ⟨dist, hdist⟩ := Option.isSome_iff_exists.mp
      (addLinks_isSome _ pageLinks (damping / (pageLinks.length : ℚ)) hsf)
    have hkeys : keysOf dist = keysOf corpus := by
      rw [addLinks_keysOf hdist, keysOf_map_value]
    have hL : (pageLinks.length : ℚ) ≠ 0 := by
      have hne : pageLinks ≠ [] := by simpa [List.isEmpty_iff] using hempty
      exact Nat.cast_ne_zero.mpr (by simpa [List.length_eq_zero] using hne)
    refine ⟨dist, ?_, hkeys, length_eq_of_keysOf hkeys, ?_⟩
    · simp only [transition_model, hpage, if_neg hempty]
      exact hdist
    · rw [addLinks_sum hdist, sumValues_map_const]
      field_simp

/-- C8: whenever `damping > 0` and the current page has outbound links, each
linked page receives strictly greater probability from `transition_model`
than each unlinked page. -/
theorem transition_model_linked_gt_unlinked (corpus : LinkGraph) (page : Page)
    (pageLinks : List Page) (damping : ℚ)
    (hv : ValidGraph corpus) (hpage : dictGet? corpus page = some pageLinks)
    (hne : pageLinks ≠ []) (hd : 0 < damping) :
    ∃ dist, transition_model corpus page damping = some dist ∧
      ∀ a ∈ pageLinks, ∀ b ∈ keysOf corpus, b ∉ pageLinks →
        ∀ va vb, dictGet? dist a = some va → dictGet? dist b = some vb →
          vb < va := by
  have hmem : (page, pageLinks) ∈ corpus := dictGet?_mem _ _ _ hpage
  obtain ⟨_, _, hsub⟩ := hv.2 _ hmem
  obtain ⟨dist, hd', _, hget⟩ :=
    transition_model_char corpus page pageLinks damping hv hpage
  refine ⟨dist, hd', ?_⟩
  intro a ha b hb hbn va vb hva hvb
  have hempty : ¬pageLinks.isEmpty := by simpa [List.isEmpty_iff] using hne
  have hL : (0 : ℚ) < pageLinks.length := by
    simpa using List.length_pos.mpr hne
  rw [hget a (hsub a ha), if_neg hempty, if_pos ha] at hva
  rw [hget b hb, if_neg hempty, if_neg hbn, add_zero] at hvb
  have : vb < vb + damping / (pageLinks.length : ℚ) := by
    have : 0 < damping / (pageLinks.length : ℚ) := div_pos hd hL
    linarith
  rw [← Option.some_inj.mp hva, ← Option.some_inj.mp hvb]
  rw [← Option.some_inj.mp hvb] at this
  exact this

/-- Under the link-closure precondition, `transition_model` succeeds and its
distribution has exactly the corpus keys.  (No key uniqueness is needed.) -/
theorem transition_model_some_keys (corpus : LinkGraph) (page : Page)
    (damping : ℚ)
    (hsub : ∀ e ∈ corpus, ∀ l ∈ e.2, l ∈ keysOf corpus)
    (hpage : page ∈ keysOf corpus) :
    ∃ dist, transition_model corpus page damping = some dist ∧
      keysOf dist = keysOf corpus := by
  obtain ⟨pageLinks, hpl⟩ := Option.isSome_iff_exists.mp
    ((dictGet?_isSome_iff corpus page).mpr hpage)
  by_cases hempty : pageLinks.isEmpty
  · refine ⟨corpus.map (fun e => (e.1, 1 / (corpus.length : ℚ))), ?_, ?_⟩
    · simp only [transition_model, hpl, if_pos hempty]
    · exact keysOf_map_value corpus (fun _ => 1 / (corpus.length : ℚ))
  · have hmem : (page, pageLinks) ∈ corpus := dictGet?_mem _ _ _ hpl
    have hsf : ∀ l ∈ pageLinks,
        l ∈ keysOf (corpus.map (fun e =>
          (e.1, (1 - damping) / (corpus.length : ℚ)))) := by
      intro l hl
      rw [keysOf_map_value]
      exact hsub _ hmem l hl
    obtain ⟨dist, hdist⟩ := Option.isSome_iff_exists.mp
      (addLinks_isSome _ pageLinks (damping / (pageLinks.length : ℚ)) hsf)
    refine ⟨dist, ?_, ?_⟩
    · simp only [transition_model, hpl, if_neg hempty]
      exact hdist
    · rw [addLinks_keysOf hdist, keysOf_map_value]

/-- C9: when every link target in the graph is itself a key and the current
page is a key, `transition_model` never raises a `KeyError` (returns `some`);
without that precondition it can fail, e.g. on the graph `{0: {5}}`. -/
theorem transition_model_no_keyerror :
    (∀ (corpus : LinkGraph) (page : Page) (damping : ℚ),
      (∀ e ∈ corpus, ∀ l ∈ e.2, l ∈ keysOf corpus) →
      page ∈ keysOf corpus →
      (transition_model corpus page damping).isSome = true) ∧
    transition_model [(0, [5])] 0 (17/20) = none := by
  constructor
  · intro corpus page damping hsub hpage
    obtain ⟨dist, hdist, -⟩ :=
      transition_model_some_keys corpus page damping hsub hpage
    rw [hdist]
    rfl
  · rfl

/-- Witness for C5 on the two-page cycle graph. -/
theorem transition_model_distribution_formula_witness :
    ∃ dist, transition_model [(0, [1]), (1, [0])] 0 (17/20) = some dist ∧
      ((([1] : List Page) = [] →
        ∀ q ∈ keysOf [(0, [1]), (1, [0])], dictGet? dist q
          = some (1 / (([(0, [1]), (1, [0])] : LinkGraph).length : ℚ))) ∧
      (([1] : List Page) ≠ [] →
        ∀ q ∈ keysOf [(0, [1]), (1, [0])], dictGet? dist q = some (
          if q ∈ ([1] : List Page) then
            (1 - 17/20) / (([(0, [1]), (1, [0])] : LinkGraph).length : ℚ)
              + (17/20) / (([1] : List Page).length : ℚ)
          else (1 - 17/20) / (([(0, [1]), (1, [0])] : LinkGraph).length : ℚ)))) :=
  transition_model_distribution_formula [(0, [1]), (1, [0])] 0 [1]
    (17/20) (by decide) rfl (by norm_num) (by norm_num)

/-- Witness for C6 on the two-page cycle graph. -/
theorem transition_model_entries_sum_one_witness :
    ∃ dist, transition_model [(0, [1]), (1, [0])] 0 (17/20) = some dist ∧
      keysOf dist = keysOf [(0, [1]), (1, [0])] ∧
      dist.length = ([(0, [1]), (1, [0])] : LinkGraph).length ∧
      sumValues dist = 1 :=
  transition_model_entries_sum_one [(0, [1]), (1, [0])] 0 [1]
    (17/20) (by decide) rfl (by norm_num) (by norm_num)

/-- Witness for C8 on a three-page graph where page 0 links only to page 1. -/
theorem transition_model_linked_gt_unlinked_witness :
    ∃ dist, transition_model [(0, [1]), (1, [0]), (2, [0])] 0 (17/20)
        = some dist ∧
      ∀ a ∈ ([1] : List Page), ∀ b ∈ keysOf [(0, [1]), (1, [0]), (2, [0])],
        b ∉ ([1] : List Page) →
        ∀ va vb, dictGet? dist a = some va → dictGet? dist b = some vb →
          vb < va :=
  transition_model_linked_gt_unlinked [(0, [1]), (1, [0]), (2, [0])] 0 [1]
    (17/20) (by decide) rfl (by decide) (by norm_num)

/-- Witness for C9 on the two-page cycle graph. -/
theorem transition_model_no_keyerror_witness :
    (transition_model [(0, [1]), (1, [0])] 0 (17/20)).isSome = true :=
  transition_model_no_keyerror.1 [(0, [1]), (1, [0])] 0 (17/20)
    (by decide) (by decide)

namespace SampleLemmas

open DictLemmas

theorem sampleWalk_char (r : RandSrc) (corpus : LinkGraph) (damping : ℚ)
    (hr : ValidRand r)
    (hsub : ∀ e ∈ corpus, ∀ l ∈ e.2, l ∈ keysOf corpus) :
    ∀ (k : ℕ) (ranks : List (Page × ℕ)) (page : Page),
      keysOf ranks = keysOf corpus → page ∈ keysOf corpus →
      ∃ ranks', sampleWalk r corpus damping k ranks page = some ranks' ∧
        keysOf ranks' = keysOf corpus ∧
        sumValues ranks' = sumValues ranks + k := by
  intro k
  induction k with
  | zero =>
    intro ranks page hk _
    exact ⟨ranks, rfl, hk, by simp⟩
  | succ k ih =>
    intro ranks page hk hp
    have hpk : page ∈ keysOf ranks := hk ▸ hp
    obtain ⟨ranks₁, h₁⟩ := Option.isSome_iff_exists.mp
      ((incKey_isSome ranks page 1).mpr hpk)
    obtain ⟨dist, hdist, hdk⟩ :=
      transition_model_some_keys corpus page damping hsub hp
    have hkne : keysOf dist ≠ [] := by
      rw [hdk]
      intro hc
      rw [hc] at hp
      simp at hp
    obtain ⟨next, hnextmem, hnext⟩ :=
      hr.choices_mem (keysOf dist) (dist.map Prod.snd) hkne
    have hnc : next ∈ keysOf corpus := hdk ▸ hnextmem
    obtain ⟨ranks', hw, hk', hs'⟩ :=
      ih ranks₁ next (by rw [incKey_keysOf h₁, hk]) hnc
    refine ⟨ranks', ?_, hk', ?_⟩
    · simp only [sampleWalk, h₁, hdist, hnext]
      exact hw
    · rw [hs', incKey_sum h₁]
      omega

theorem rankComprehension_char (ranks : List (Page × ℕ)) (n : ℤ)
    (hn : (n : ℚ) ≠ 0) :
    rankComprehension ranks n
      = some (ranks.map (fun e => (e.1, (e.2 : ℚ) / (n : ℚ)))) := by
  induction ranks with
  | nil => rfl
  | cons e rest ih =>
    simp only [rankComprehension, qdiv?, if_neg hn, ih, List.map_cons]

theorem sumValues_map_div (ranks : List (Page × ℕ)) (n : ℚ) :
    sumValues (ranks.map (fun e => (e.1, (e.2 : ℚ) / n)))
      = ((sumValues ranks : ℕ) : ℚ) / n := by
  induction ranks with
  | nil => simp [sumValues]
  | cons e rest ih =>
    simp only [List.map_cons, sumValues, List.sum_cons] at ih ⊢
    rw [ih]
    push_cast
    rw [add_div]

theorem sumValues_init_zero (corpus : LinkGraph) :
    sumValues (corpus.map (fun e => (e.1, (0 : ℕ)))) = 0 := by
  induction corpus with
  | nil => rfl
  | cons e rest ih =>
    simp only [List.map_cons, sumValues, List.sum_cons] at ih ⊢
    rw [ih]

end SampleLemmas

open DictLemmas SampleLemmas

/-- Full characterization of a successful `sample_pagerank` run: the walk
succeeds, its counters total `n - 1`, and the returned dict is the counters
divided by `n`.  Needs only link closure, a non-empty graph, a well-behaved
randomness source and `n ≥ 1` — no damping bounds and no validation. -/
theorem sample_pagerank_char (r : RandSrc) (corpus : LinkGraph)
    (damping : ℚ) (n : ℤ) (hr : ValidRand r)
    (hsub : ∀ e ∈ corpus, ∀ l ∈ e.2, l ∈ keysOf corpus)
    (hne : corpus ≠ []) (hn : 1 ≤ n) :
    ∃ start counts,
      r.choice (keysOf corpus) = some start ∧
      sampleWalk r corpus damping (n - 1).toNat
        (corpus.map (fun e => (e.1, 0))) start = some counts ∧
      keysOf counts = keysOf corpus ∧
      sumValues counts = (n - 1).toNat ∧
      sample_pagerank r corpus damping n
        = some (counts.map (fun e => (e.1, (e.2 : ℚ) / (n : ℚ)))) := by
  have hkne : keysOf corpus ≠ [] := by
    cases corpus with
    | nil => exact absurd rfl hne
    | cons e rest => simp [keysOf]
  obtain ⟨start, hsmem, hstart⟩ := hr.choice_mem (keysOf corpus) hkne
  obtain ⟨counts, hwalk, hkeys, hsum⟩ :=
    sampleWalk_char r corpus damping hr hsub (n - 1).toNat
      (corpus.map (fun e => (e.1, 0))) start
      (keysOf_map_value corpus (fun _ => 0)) hsmem
  have hnq : (n : ℚ) ≠ 0 := Int.cast_ne_zero.mpr (by omega)
  refine ⟨start, counts, hstart, hwalk, hkeys, ?_, ?_⟩
  · rw [hsum, sumValues_init_zero]
    omega
  · simp only [sample_pagerank, hstart, hwalk]
    exact rankComprehension_char counts n hnq

/-- C10: for every valid non-empty graph, damping in [0,1], n ≥ 1 and every
outcome of the randomness source, the visit counters of `sample_pagerank`
are naturals totalling exactly n-1 at the end of the walk (the final page
reached is never counted), and the returned mapping has exactly one entry per
corpus page, non-negative values, and value sum exactly (n-1)/n. -/
theorem sample_pagerank_sum_pred_n_div_n (r : RandSrc) (corpus : LinkGraph)
    (damping : ℚ) (n : ℤ) (hr : ValidRand r) (hv : ValidGraph corpus)
    (hne : corpus ≠ []) (hd0 : 0 ≤ damping) (hd1 : damping ≤ 1) (hn : 1 ≤ n) :
    ∃ start counts result,
      r.choice (keysOf corpus) = some start ∧
      sampleWalk r corpus damping (n - 1).toNat
        (corpus.map (fun e => (e.1, 0))) start = some counts ∧
      sumValues counts = (n - 1).toNat ∧
      sample_pagerank r corpus damping n = some result ∧
      keysOf result = keysOf corpus ∧
      result.length = corpus.length ∧
      (∀ e ∈ result, 0 ≤ e.2) ∧
      sumValues result = ((n : ℚ) - 1) / (n : ℚ) := by
  obtain ⟨start, counts, hstart, hwalk, hkeys, hsum, hres⟩ :=
    sample_pagerank_char r corpus damping n hr
      (fun e he => (hv.2 e he).2.2) hne hn
  have hnpos : (0 : ℚ) < (n : ℚ) := by exact_mod_cast (by omega : (0:ℤ) < n)
  have hkeys' : keysOf (counts.map (fun e => (e.1, (e.2 : ℚ) / (n : ℚ))))
      = keysOf corpus := by
    rw [keysOf_map_value counts (fun e => (e.2 : ℚ) / (n : ℚ))]
    exact hkeys
  refine ⟨start, counts, counts.map (fun e => (e.1, (e.2 : ℚ) / (n : ℚ))),
    hstart, hwalk, hsum, hres, hkeys', ?_, ?_, ?_⟩
  · exact length_eq_of_keysOf (hkeys'.trans (by
      cases corpus with
      | nil => exact absurd rfl hne
      | cons e rest => rfl))
  · intro e he
    obtain ⟨a, _, rfl⟩ := List.mem_map.mp he
    exact div_nonneg (by positivity) (le_of_lt hnpos)
  · rw [sumValues_map_div, hsum]
    have hcast : (((n - 1).toNat : ℕ) : ℚ) = (n : ℚ) - 1 := by
      have h1 : (((n - 1).toNat : ℕ) : ℤ) = n - 1 :=
        Int.toNat_of_nonneg (by omega)
      exact_mod_cast congrArg (Int.cast : ℤ → ℚ) h1
    rw [hcast]

theorem headRand_valid : ValidRand headRand := by
  refine ⟨?_, ?_, rfl⟩
  · intro l hl
    cases l with
    | nil => exact absurd rfl hl
    | cons a t => exact ⟨a, List.mem_cons_self _ _, rfl⟩
  · intro ks ws hk
    cases ks with
    | nil => exact absurd rfl hk
    | cons a t => exact ⟨a, List.mem_cons_self _ _, rfl⟩

/-- Witness for C10: a concrete run on the two-page cycle with n = 3. -/
theorem sample_pagerank_sum_pred_n_div_n_witness :
    ∃ start counts result,
      headRand.choice (keysOf [(0, [1]), (1, [0])]) = some start ∧
      sampleWalk headRand [(0, [1]), (1, [0])] (17/20) ((3 : ℤ) - 1).toNat
        (([(0, [1]), (1, [0])] : LinkGraph).map (fun e => (e.1, (0 : ℕ))))
        start = some counts ∧
      sumValues counts = ((3 : ℤ) - 1).toNat ∧
      sample_pagerank headRand [(0, [1]), (1, [0])] (17/20) 3 = some result ∧
      keysOf result = keysOf [(0, [1]), (1, [0])] ∧
      result.length = ([(0, [1]), (1, [0])] : LinkGraph).length ∧
      (∀ e ∈ result, 0 ≤ e.2) ∧
      sumValues result = (((3 : ℤ) : ℚ) - 1) / ((3 : ℤ) : ℚ) :=
  sample_pagerank_sum_pred_n_div_n headRand [(0, [1]), (1, [0])] (17/20) 3
    headRand_valid (by decide) (by decide) (by norm_num) (by norm_num)
    (by norm_num)

/-- C1 fails on the code: `sample_pagerank` records only `n - 1` visits, not
`n`.  On the one-page graph with n = 3 the walk counts 2 visits, the returned
rank is 2/3, and the rank values sum to 2/3, not 1. -/
theorem sample_pagerank_sum_not_one_at_n_three :
    sample_pagerank headRand [(0, [])] (17/20) 3 = some [(0, 2/3)] ∧
      sumValues [((0 : Page), (2/3 : ℚ))] ≠ 1 := by
  constructor
  · norm_num [sample_pagerank, keysOf, headRand, sampleWalk, rankComprehension,
      qdiv?, transition_model, dictGet?, addLinks, incKey]
  · norm_num [sumValues]

/-- C4 fails on the code: with n = 1 the `range(n - 1)` loop never runs, so
the uniformly chosen start page (page 0 here) keeps visit count 0 and the
returned mapping gives it rank 0, not 1. -/
theorem sample_pagerank_n_one_rank_zero :
    headRand.choice (keysOf ([(0, [])] : LinkGraph)) = some 0 ∧
      sample_pagerank headRand [(0, [])] (17/20) 1 = some [(0, 0)] ∧
      dictGet? [((0 : Page), (0 : ℚ))] 0 ≠ some 1 := by
  refine ⟨rfl, ?_, ?_⟩
  · norm_num [sample_pagerank, keysOf, headRand, sampleWalk,
      rankComprehension, qdiv?]
  · norm_num [dictGet?]

/-- C3 fails on the code: with damping = 2, far outside [0,1], on a valid
two-page graph, `sample_pagerank` signals no error at entry: it proceeds with
the ill-ranged transition probabilities and returns a complete rank mapping. -/
theorem sample_pagerank_damping_two_proceeds :
    sample_pagerank headRand [(0, [1]), (1, [0])] 2 2
      = some [(0, 1/2), (1, 0)] := by
  norm_num [sample_pagerank, keysOf, headRand, sampleWalk, rankComprehension,
    qdiv?, transition_model, dictGet?, addLinks, incKey]

/-- Python `d[k] = v` on an existing key leaves the key sequence unchanged. -/
theorem dictSet_keysOf {α : Type} (d : List (Page × α)) (k : Page) (v : α)
    (h : k ∈ keysOf d) : keysOf (dictSet d k v) = keysOf d := by
  induction d with
  | nil => simp [keysOf] at h
  | cons e rest ih =>
    by_cases he : e.1 = k
    · simp only [dictSet, if_pos he, keysOf, List.map_cons]
      rw [he]
    · simp only [keysOf, List.map_cons, List.mem_cons] at h
      rcases h with h | h
      · exact absurd h.symm he
      · simp only [dictSet, if_neg he, keysOf, List.map_cons]
        rw [show (dictSet rest k v).map Prod.fst
            = keysOf (dictSet rest k v) from rfl, ih h]
        rfl

/-- The inner loop of a pass never raises when every corpus key has a rank
entry — for every damping value. -/
theorem linkCounterAux_isSome (allKeys : List Page) (ranks : RankDict)
    (page : Page) :
    ∀ (cs : LinkGraph) (acc : ℚ), (∀ e ∈ cs, e.1 ∈ keysOf ranks) →
      ∃ q, linkCounterAux allKeys ranks page cs acc = some q := by
  intro cs
  induction cs with
  | nil => intro acc _; exact ⟨acc, rfl⟩
  | cons e rest ih =>
    intro acc hsub
    have he : e.1 ∈ keysOf ranks := hsub e (List.mem_cons_self _ _)
    obtain ⟨v, hv⟩ := Option.isSome_iff_exists.mp
      ((dictGet?_isSome_iff ranks e.1).mpr he)
    by_cases hmem : page ∈ (if e.2.isEmpty then allKeys else e.2)
    · simp only [linkCounterAux, if_pos hmem, hv]
      exact ih _ (fun x hx => hsub x (List.mem_cons_of_mem _ hx))
    · simp only [linkCounterAux, if_neg hmem]
      exact ih _ (fun x hx => hsub x (List.mem_cons_of_mem _ hx))

/-- A whole in-place pass never raises when the rank dict covers the corpus
keys and the visited pages, and it preserves the rank keys — for every
damping value. -/
theorem iteratePassAux_total (corpus : LinkGraph) (damping : ℚ) :
    ∀ (pages : List Page) (s : RankDict × List (Page × QInf)),
      (∀ e ∈ corpus, e.1 ∈ keysOf s.1) → (∀ p ∈ pages, p ∈ keysOf s.1) →
      ∃ s', iteratePassAux corpus damping pages s = some s' ∧
        keysOf s'.1 = keysOf s.1 := by
  intro pages
  induction pages with
  | nil => intro s _ _; exact ⟨s, rfl, rfl⟩
  | cons page rest ih =>
    intro s hcorp hpages
    obtain ⟨lc, hlc⟩ :=
      linkCounterAux_isSome (keysOf corpus) s.1 page corpus 0 hcorp
    have hp : page ∈ keysOf s.1 := hpages page (List.mem_cons_self _ _)
    obtain ⟨old, hold⟩ := Option.isSome_iff_exists.mp
      ((dictGet?_isSome_iff s.1 page).mpr hp)
    have hkeys1 : keysOf (dictSet s.1 page
        ((1 - damping) / (corpus.length : ℚ) + damping * lc)) = keysOf s.1 :=
      dictSet_keysOf _ _ _ hp
    obtain ⟨s', hs', hk⟩ := ih
      (dictSet s.1 page ((1 - damping) / (corpus.length : ℚ) + damping * lc),
       dictSet s.2 page
         ((|(1 - damping) / (corpus.length : ℚ) + damping * lc - old| : ℚ)
           : QInf))
      (fun e he => hkeys1.symm ▸ hcorp e he)
      (fun p hp' => hkeys1.symm ▸ hpages p (List.mem_cons_of_mem _ hp'))
    refine ⟨s', ?_, by rw [hk]; exact hkeys1⟩
    simp only [iteratePassAux, hlc, hold]
    exact hs'

/-- Any number of whole passes succeeds from a state whose rank keys are the
corpus keys — for every damping value. -/
theorem iteratePasses_total (corpus : LinkGraph) (damping : ℚ) :
    ∀ (k : ℕ) (s : RankDict × List (Page × QInf)),
      keysOf s.1 = keysOf corpus →
      ∃ s', iteratePasses corpus damping k s = some s' ∧
        keysOf s'.1 = keysOf corpus := by
  intro k
  induction k with
  | zero => intro s hs; exact ⟨s, rfl, hs⟩
  | succ k ih =>
    intro s hs
    have hcorp : ∀ e ∈ corpus, e.1 ∈ keysOf s.1 := fun e he => by
      rw [hs]
      exact List.mem_map_of_mem Prod.fst he
    obtain ⟨s₁, hpass, hk1⟩ :=
      iteratePassAux_total corpus damping (keysOf s.1) s hcorp (fun p hp => hp)
    obtain ⟨s', hrest, hk'⟩ := ih s₁ (by rw [hk1, hs])
    refine ⟨s', ?_, hk'⟩
    rw [iteratePasses, show iteratePass corpus damping s = some s₁ from hpass]
    exact hrest

/-- C3 amended: neither estimator validates its arguments at entry.  For a
valid non-empty graph, a well-behaved randomness source and n ≥ 1,
`sample_pagerank` proceeds and returns a complete rank mapping for arbitrary
damping (including values outside [0,1]); on the empty graph it fails only
because `random.choice` raises on the empty key sequence.  `iterate_pagerank`
likewise checks nothing at entry: starting from its initial state, every pass
of its while-loop completes without error for every damping value, and on the
empty graph it fails only via the `ZeroDivisionError` at `1/len(corpus)`,
downstream of entry. -/
theorem estimators_no_validation (r : RandSrc) (hr : ValidRand r) :
    (∀ (corpus : LinkGraph) (damping : ℚ) (n : ℤ),
      ValidGraph corpus → corpus ≠ [] → 1 ≤ n →
      (sample_pagerank r corpus damping n).isSome = true) ∧
    (∀ (damping : ℚ) (n : ℤ), sample_pagerank r [] damping n = none) ∧
    (∀ (corpus : LinkGraph) (damping : ℚ) (k : ℕ),
      (iteratePasses corpus damping k
        (corpus.map (fun e => (e.1, 1 / (corpus.length : ℚ))),
         corpus.map (fun e => (e.1, (⊤ : QInf))))).isSome = true) ∧
    (∀ (damping : ℚ) (fuel : ℕ), iterate_pagerank [] damping fuel = none) := by
  refine ⟨?_, ?_, ?_, ?_⟩
  · intro corpus damping n hv hne hn
    obtain ⟨start, counts, hstart, hwalk, hkeys, hsum, hres⟩ :=
      sample_pagerank_char r corpus damping n hr
        (fun e he => (hv.2 e he).2.2) hne hn
    rw [hres]
    rfl
  · intro damping n
    simp only [sample_pagerank]
    rw [show keysOf ([] : LinkGraph) = [] from rfl, hr.choice_empty]
  · intro corpus damping k
    obtain ⟨s', hs', -⟩ := iteratePasses_total corpus damping k
      (corpus.map (fun e => (e.1, 1 / (corpus.length : ℚ))),
       corpus.map (fun e => (e.1, (⊤ : QInf))))
      (keysOf_map_value corpus (fun _ => 1 / (corpus.length : ℚ)))
    rw [hs']
    rfl
  · intro damping fuel
    norm_num [iterate_pagerank, qdiv?]

/-- Witness for the amended C3: damping = -3 (outside [0,1]) proceeds in both
estimators on the two-page cycle. -/
theorem estimators_no_validation_witness :
    (sample_pagerank headRand [(0, [1]), (1, [0])] (-3) 2).isSome = true ∧
    (iteratePasses [(0, [1]), (1, [0])] (-3) 1
      (([(0, [1]), (1, [0])] : LinkGraph).map
        (fun e => (e.1, 1 / (([(0, [1]), (1, [0])] : LinkGraph).length : ℚ))),
       ([(0, [1]), (1, [0])] : LinkGraph).map
        (fun e => (e.1, (⊤ : QInf))))).isSome = true :=
  ⟨(estimators_no_validation headRand headRand_valid).1
      [(0, [1]), (1, [0])] (-3) 2 (by decide) (by decide) (by norm_num),
   (estimators_no_validation headRand headRand_valid).2.2.1
      [(0, [1]), (1, [0])] (-3) 1⟩


theorem anyChangeGt_false_iff (changes : List (Page × QInf)) :
    anyChangeGt changes = false ↔
      ∀ e ∈ changes, e.2 ≤ ((1/1000 : ℚ) : QInf) := by
  simp [anyChangeGt, not_lt]

theorem anyChangeGt_true_iff (changes : List (Page × QInf)) :
    anyChangeGt changes = true ↔
      ∃ e ∈ changes, ((1/1000 : ℚ) : QInf) < e.2 := by
  simp [anyChangeGt]

/-- Characterization of the `while` loop: a returned rank dict arises from
whole in-place passes, the guard was true before every executed pass, and
false at exit. -/
theorem iterateLoop_char (corpus : LinkGraph) (damping : ℚ) :
    ∀ (fuel : ℕ) (s : RankDict × List (Page × QInf)) (r : RankDict),
      iterateLoop corpus damping fuel s = some r →
      ∃ k sfin, iteratePasses corpus damping k s = some sfin ∧
        sfin.1 = r ∧ anyChangeGt sfin.2 = false ∧
        (∀ j s_j, j < k → iteratePasses corpus damping j s = some s_j →
          anyChangeGt s_j.2 = true) := by
  intro fuel
  induction fuel with
  | zero => intro s r h; simp [iterateLoop] at h
  | succ fuel ih =>
    intro s r h
    rw [iterateLoop] at h
    by_cases hg : anyChangeGt s.2 = true
    · rw [if_pos hg] at h
      cases hp : iteratePass corpus damping s with
      | none => rw [hp] at h; simp at h
      | some s' =>
        rw [hp] at h
        obtain ⟨k, sfin, hks, hr, hfalse, hprev⟩ := ih s' r h
        refine ⟨k + 1, sfin, ?_, hr, hfalse, ?_⟩
        · rw [iteratePasses, hp]
          exact hks
        · intro j s_j hj hjs
          cases j with
          | zero =>
            simp only [iteratePasses, Option.some_inj] at hjs
            rw [← hjs]
            exact hg
          | succ j =>
            rw [iteratePasses, hp] at hjs
            exact hprev j s_j (by omega) hjs
    · rw [if_neg hg] at h
      refine ⟨0, s, rfl, Option.some_inj.mp h, ?_, by omega⟩
      exact Bool.not_eq_true _ ▸ (Bool.eq_false_iff.mpr hg)

/-- C2 fails on the code: one in-place pass on the graph `{0: {}, 1: {0}}`
from the uniform snapshot produces a different rank for page 1 than the
spec's snapshot (Jacobi) pass, because page 1's update reads page 0's rank
already updated earlier in the same pass. -/
theorem iteratePass_differs_from_snapshot :
    (iteratePass [(0, []), (1, [0])] (17/20)
        ([(0, 1/2), (1, 1/2)], [(0, ⊤), (1, ⊤)])).map Prod.fst
      ≠ snapshotPass [(0, []), (1, [0])] (17/20) [(0, 1/2), (1, 1/2)] := by
  norm_num [iteratePass, iteratePassAux, linkCounterAux, dictGet?, dictSet,
    keysOf, snapshotPass, snapshotPassAux]

/-- C2 amended: each update pass of `iterate_pagerank` updates the rank dict
in place (`iteratePass`; a page's new rank can use values already updated
earlier in the same pass), and the convergence test is evaluated only
between whole passes: a returned result arises from k whole passes, every
earlier pass ended with some page's change exceeding 0.001, and the final
pass left every page's change at most 0.001. -/
theorem iterate_pagerank_loop_whole_passes (corpus : LinkGraph) (damping : ℚ)
    (fuel : ℕ) (s : RankDict × List (Page × QInf)) (r : RankDict)
    (h : iterateLoop corpus damping fuel s = some r) :
    ∃ k sfin, iteratePasses corpus damping k s = some sfin ∧
      sfin.1 = r ∧
      (∀ e ∈ sfin.2, e.2 ≤ ((1/1000 : ℚ) : QInf)) ∧
      ∀ j s_j, j < k → iteratePasses corpus damping j s = some s_j →
        ∃ e ∈ s_j.2, ((1/1000 : ℚ) : QInf) < e.2 := by
  obtain ⟨k, sfin, hks, hr, hfalse, hprev⟩ :=
    iterateLoop_char corpus damping fuel s r h
  exact ⟨k, sfin, hks, hr, (anyChangeGt_false_iff _).mp hfalse,
    fun j s_j hj hjs => (anyChangeGt_true_iff _).mp (hprev j s_j hj hjs)⟩

/-- A concrete converging loop run on the one-page graph. -/
theorem iterateLoop_one_page_run :
    iterateLoop [(0, [])] (17/20) 2 ([(0, 1)], [(0, ⊤)]) = some [(0, 1)] := by
  norm_num [iterateLoop, iteratePass, iteratePassAux, linkCounterAux,
    dictGet?, dictSet, keysOf, anyChangeGt]

/-- Witness for the amended C2 on the one-page graph. -/
theorem iterate_pagerank_loop_whole_passes_witness :
    ∃ k sfin, iteratePasses [(0, [])] (17/20) k ([(0, 1)], [(0, ⊤)])
        = some sfin ∧
      sfin.1 = [(0, 1)] ∧
      (∀ e ∈ sfin.2, e.2 ≤ ((1/1000 : ℚ) : QInf)) ∧
      ∀ j s_j, j < k →
        iteratePasses [(0, [])] (17/20) j ([(0, 1)], [(0, ⊤)]) = some s_j →
        ∃ e ∈ s_j.2, ((1/1000 : ℚ) : QInf) < e.2 :=
  iterate_pagerank_loop_whole_passes [(0, [])] (17/20) 2
    ([(0, 1)], [(0, ⊤)]) [(0, 1)] iterateLoop_one_page_run

/-- One symbolic in-place pass on the graph `{0: {}, 1: {3}, 2: {1}, 3: {2}}`
at damping 1. -/
theorem corpus4_pass (a r1 r2 r3 : ℚ) (c0 c1 c2 c3 : QInf) :
    iteratePass [(0, []), (1, [3]), (2, [1]), (3, [2])] 1
        ([(0, a), (1, r1), (2, r2), (3, r3)],
         [(0, c0), (1, c1), (2, c2), (3, c3)])
      = some ([(0, a/4), (1, a/16 + r2), (2, a/16 + r3), (3, a/8 + r2)],
          [(0, ((|a/4 - a| : ℚ) : QInf)),
           (1, ((|a/16 + r2 - r1| : ℚ) : QInf)),
           (2, ((|a/16 + r3 - r2| : ℚ) : QInf)),
           (3, ((|a/8 + r2 - r3| : ℚ) : QInf))]) := by
  norm_num [iteratePass, iteratePassAux, linkCounterAux, dictGet?, dictSet,
    keysOf]
  ring_nf
  simp

/-- The invariant `Inv4` implies the loop guard and is preserved by one
pass, with the sign of the `r3 - r2` gap alternating. -/
theorem inv4_step (st : RankDict × List (Page × QInf)) (h : Inv4 st) :
    anyChangeGt st.2 = true ∧
    ∃ st', iteratePass [(0, []), (1, [3]), (2, [1]), (3, [2])] 1 st
        = some st' ∧ Inv4 st' := by
  obtain ⟨a, r1, r2, r3, c0, c1, c2, c3, rfl, ha, hf, hc3⟩ := h
  constructor
  · rw [anyChangeGt_true_iff]
    exact ⟨(3, c3), by simp, hc3⟩
  · refine ⟨_, corpus4_pass a r1 r2 r3 c0 c1 c2 c3, ?_⟩
    refine ⟨a/4, a/16 + r2, a/16 + r3, a/8 + r2, _, _, _, _, rfl,
      by linarith, ?_, ?_⟩
    · rcases hf with ⟨hf, hb⟩ | ⟨hf, hb⟩
      · right
        exact ⟨by linarith, by linarith⟩
      · left
        exact ⟨by linarith, by linarith⟩
    · rcases hf with ⟨hf, hb⟩ | ⟨hf, hb⟩
      · have hx : (1/1000 : ℚ) < |a/8 + r2 - r3| := by
          have heq : a/8 + r2 - r3 = 3*a/40 + 1/80 := by linarith
          rw [heq, abs_of_pos (by linarith)]
          linarith
        exact WithTop.coe_lt_coe.mpr hx
      · have hx : (1/1000 : ℚ) < |a/8 + r2 - r3| := by
          have heq : a/8 + r2 - r3 = 3*a/40 - 1/80 := by linarith
          rw [heq, abs_of_neg (by linarith)]
          linarith
        exact WithTop.coe_lt_coe.mpr hx

/-- From any state satisfying `Inv4`, the loop never exits. -/
theorem iterateLoop_corpus4_none :
    ∀ (fuel : ℕ) (st : RankDict × List (Page × QInf)), Inv4 st →
      iterateLoop [(0, []), (1, [3]), (2, [1]), (3, [2])] 1 fuel st
        = none := by
  intro fuel
  induction fuel with
  | zero => intro st _; rfl
  | succ fuel ih =>
    intro st h
    obtain ⟨hg, st', hpass, hinv⟩ := inv4_step st h
    rw [iterateLoop, if_pos hg, hpass]
    exact ih st' hinv

/-- C7 fails on the code: with damping = 1 (a valid damping per the spec) on
the valid four-page graph `{0: {}, 1: {3}, 2: {1}, 3: {2}}`, the `while`
loop of `iterate_pagerank` never reaches a pass in which every page's change
is at most 0.001 — no amount of fuel makes it return. -/
theorem iterate_pagerank_damping_one_diverges :
    ¬ IterateTerminates [(0, []), (1, [3]), (2, [1]), (3, [2])] 1 := by
  rintro ⟨fuel, hf⟩
  rw [iterate_pagerank] at hf
  norm_num [qdiv?] at hf
  rw [iterateLoop_corpus4_none fuel _ ?_] at hf
  · simp at hf
  · exact ⟨1/4, 1/4, 1/4, 1/4, ⊤, ⊤, ⊤, ⊤, rfl, by norm_num,
      Or.inl ⟨by norm_num, by norm_num⟩, WithTop.coe_lt_top _⟩

/-- C7 amended: on every valid non-empty graph, with a well-behaved
randomness source, damping in [0,1] and n ≥ 1, `sample_pagerank` terminates
and returns a result; and whenever the `while` loop of `iterate_pagerank`
exits, it has reached a pass in which every page's change is at most 0.001
(the iterative estimator itself is not total: see
the divergence at damping 1). -/
theorem estimators_termination (r : RandSrc) (corpus : LinkGraph)
    (damping : ℚ) (n : ℤ) (hr : ValidRand r) (hv : ValidGraph corpus)
    (hne : corpus ≠ []) (hd0 : 0 ≤ damping) (hd1 : damping ≤ 1) (hn : 1 ≤ n) :
    (sample_pagerank r corpus damping n).isSome = true ∧
    ∀ (fuel : ℕ) (res : RankDict),
      iterate_pagerank corpus damping fuel = some res →
      ∃ k sfin, iteratePasses corpus damping k
          (corpus.map (fun e => (e.1, 1 / (corpus.length : ℚ))),
           corpus.map (fun e => (e.1, (⊤ : QInf)))) = some sfin ∧
        sfin.1 = res ∧ ∀ e ∈ sfin.2, e.2 ≤ ((1/1000 : ℚ) : QInf) := by
  constructor
  · obtain ⟨start, counts, hstart, hwalk, hkeys, hsum, hres⟩ :=
      sample_pagerank_char r corpus damping n hr
        (fun e he => (hv.2 e he).2.2) hne hn
    rw [hres]
    rfl
  · intro fuel res hres
    have hlen : (corpus.length : ℚ) ≠ 0 := by
      have : corpus.length ≠ 0 := by
        simpa [List.length_eq_zero] using hne
      exact_mod_cast Nat.cast_ne_zero.mpr this
    simp only [iterate_pagerank, qdiv?, if_neg hlen] at hres
    obtain ⟨k, sfin, hks, hr', hfalse, -⟩ :=
      iterateLoop_char corpus damping fuel _ res hres
    exact ⟨k, sfin, hks, hr', (anyChangeGt_false_iff _).mp hfalse⟩

/-- Witness for the amended C7: the sampling estimator returns a result on
the one-page graph. -/
theorem estimators_termination_witness :
    (sample_pagerank headRand [(0, [])] (17/20) 1).isSome = true :=
  (estimators_termination headRand [(0, [])] (17/20) 1 headRand_valid
    (by decide) (by decide) (by norm_num) (by norm_num) (by norm_num)).1
